import Mathlib

/-!
Verification of the i18n-gen catalog generator (`src/main.go`).

The program is embedded shallowly:

* Go `map[string]string` values become association lists (`GoMap`): an
  insertion appends at the end, and a lookup returns the value of the last
  matching pair, matching Go's overwrite-on-insert semantics.
* A text file becomes its list of scanner lines (`List String`); the bytes of
  a written file are recovered by `renderFile`, which appends a newline to
  every line, exactly as the generator's `fmt.Sprintf("[%s]\nother = \"%s\"\n\n", ...)`
  produces them.
* A possibly-absent file is an `Option (List String)`.
* The two line scanners of the source (`loadExistingTOML` and the second pass
  of `parseProto`) become explicit step functions folded over the line list.

String primitives used by the source (`strings.HasPrefix`, `strings.HasSuffix`,
`strings.TrimSpace`, `strings.Trim(s, "\"")`, `strings.Contains`,
`strings.Index`, `strings.LastIndex`) are modelled on the character list of a
`String`.
-/

/-- Character-list test: `p` is a leading segment of `l`
(model of Go `strings.HasPrefix` on the underlying characters). -/
def chPre : List Char → List Char → Bool
  | [], _ => true
  | _ :: _, [] => false
  | p :: ps, c :: cs => p == c && chPre ps cs

/-- Model of Go `strings.HasPrefix s p`. -/
def goHasPre (s p : String) : Bool := chPre p.data s.data

/-- Model of Go `strings.HasSuffix s p`. -/
def goHasSuf (s p : String) : Bool := chPre p.data.reverse s.data.reverse

/-- The whitespace set of Go `unicode.IsSpace` restricted to the characters
`strings.TrimSpace` removes (space, tab, newline, vertical tab, form feed,
carriage return, NEL, NBSP). -/
def goIsSpace (c : Char) : Bool :=
  c == ' ' || c == '\t' || c == '\n' || c == Char.ofNat 11 || c == Char.ofNat 12 ||
  c == '\r' || c == Char.ofNat 0x85 || c == Char.ofNat 0xA0

/-- Drop the longest trailing run of characters satisfying `p`. -/
def chDropEnd (p : Char → Bool) (l : List Char) : List Char :=
  (l.reverse.dropWhile p).reverse

/-- Model of Go `strings.TrimSpace`. -/
def goTrim (s : String) : String := ⟨chDropEnd goIsSpace (s.data.dropWhile goIsSpace)⟩

/-- Model of Go `strings.Trim(s, "\"")`: strip every leading and trailing
double-quote character. -/
def goTrimQuotes (s : String) : String :=
  ⟨chDropEnd (· == '"') (s.data.dropWhile (· == '"'))⟩

/-- Model of Go `strings.Contains l pat` (substring test), on character lists. -/
def containsSub (pat : List Char) : List Char → Bool
  | [] => chPre pat []
  | c :: rest => chPre pat (c :: rest) || containsSub pat rest

/-- Index of the first occurrence of `c` (model of Go `strings.Index` for a
one-character separator; `none` plays the role of Go's `-1`). -/
def chIdxOf (c : Char) : List Char → Option Nat
  | [] => none
  | x :: rest => if x == c then some 0 else (chIdxOf c rest).map (· + 1)

/-- Go `map[string]string`, as the list of insertions in order. -/
abbrev GoMap := List (String × String)

/-- Go map insertion `m[k] = v`: record the new binding last. -/
def goInsert (m : GoMap) (k v : String) : GoMap := m ++ [(k, v)]

/-- Go map lookup with an existence flag (`v, ok := m[k]`): the most recent
binding wins. -/
def goFind (m : GoMap) (k : String) : Option String :=
  (m.reverse.find? (fun p => p.1 == k)).map Prod.snd

/-- Go map access `m[k]`, which yields the zero value `""` for a missing key. -/
def goGet (m : GoMap) (k : String) : String := (goFind m k).getD ""

/-! ### Catalog reader (`loadExistingTOML`, `src/main.go` lines 224-255) -/

/-- State of the `loadExistingTOML` scanner: the current bracketed key and the
entries recorded so far. -/
structure TState where
  cur : String
  acc : GoMap

/-- One line of the `loadExistingTOML` loop: a trimmed line of the shape
`[key]` replaces the current key; a trimmed line with the literal lead
`other = ` records, under the current key when it is nonempty, the remainder
stripped of surrounding quotes; every other line is ignored. -/
def tStep (st : TState) (l : String) : TState :=
  let line := goTrim l
  if goHasPre line "[" && goHasSuf line "]" then
    { st with cur := ⟨(line.data.drop 1).dropLast⟩ }
  else if goHasPre line "other = " then
    if st.cur ≠ "" then { st with acc := goInsert st.acc st.cur (goTrimQuotes ⟨line.data.drop 8⟩) }
    else st
  else st

/-- Run the catalog-reader scanner over a list of lines. -/
def scanTOML (lines : List String) (st : TState) : TState := lines.foldl tStep st

/-- The key-to-text mapping `loadExistingTOML` builds from the lines of an
existing catalog file. -/
def loadTOML (lines : List String) : GoMap := (scanTOML lines ⟨"", []⟩).acc

/-- Model of `loadExistingTOML`: an absent file yields the empty mapping and
no error; an existing file is scanned line by line. (I/O-level open and read
failures live outside the content model.) -/
def loadExistingTOML : Option (List String) → Except String GoMap
  | none => .ok []
  | some lines => .ok (loadTOML lines)

/-- The mapping a possibly-absent catalog file denotes. -/
def loadOpt : Option (List String) → GoMap
  | none => []
  | some lines => loadTOML lines

/-! ### Catalog merger/writer (`generateTOML`, `src/main.go` lines 189-221) -/

/-- The `entryMap` value of `generateTOML`: the existing text when the key is
present, the zero value otherwise. -/
def entryMapVal (existing : GoMap) (k : String) : String :=
  match goFind existing k with
  | some v => v
  | none => ""

/-- The text `generateTOML` writes for one key: the `entryMap` value unless it
is empty, in which case the default-message map is consulted (with Go's `""`
default). -/
def mergedValue (existing messages : GoMap) (k : String) : String :=
  let ev := entryMapVal existing k
  if ev = "" then goGet messages k else ev

/-- The three lines `generateTOML` emits per key. -/
def tomlBlock (k v : String) : List String :=
  ["[" ++ k ++ "]", "other = \"" ++ v ++ "\"", ""]

/-- The full line list `generateTOML` writes, given the already-loaded prior
mapping. -/
def genLines (entries : List String) (messages existing : GoMap) : List String :=
  entries.flatMap (fun k => tomlBlock k (mergedValue existing messages k))

/-- Model of `generateTOML` on file contents: load the prior catalog, merge,
and produce the new line list. -/
def generateTOML (entries : List String) (messages : GoMap)
    (prior : Option (List String)) : Except String (List String) :=
  match loadExistingTOML prior with
  | .error e => .error e
  | .ok existing => .ok (genLines entries messages existing)

/-- The bytes of a written file: every line followed by a newline. -/
def renderFile (lines : List String) : String :=
  String.join (lines.map (· ++ "\n"))

/-- Modelled from the spec (section 4.4): the value written for a key is the
existing value if present and non-empty, otherwise the Default Message if one
exists, otherwise the empty string. Stated to be compared with the source's
`mergedValue`. -/
def specValue (existing messages : GoMap) (k : String) : String :=
  match goFind existing k with
  | some v =>
    if v ≠ "" then v
    else match goFind messages k with
      | some m => m
      | none => ""
  | none =>
    match goFind messages k with
    | some m => m
    | none => ""

/-! ### Enum pass of `parseProto` (`src/main.go` lines 119-135) -/

/-- An enum field of the parsed declaration tree (external parser output). -/
structure ProtoEnumField where
  name : String

/-- An element of an enum body: a field, or anything else (options, comments,
reserved statements), which the walk skips. -/
inductive ProtoEnumElem
  | field : ProtoEnumField → ProtoEnumElem
  | other : ProtoEnumElem

/-- An enum declaration of the parsed tree. -/
structure ProtoEnum where
  name : String
  elements : List ProtoEnumElem

/-- The field names of one enum, in declaration order. -/
def enumFieldNames (e : ProtoEnum) : List String :=
  e.elements.filterMap (fun el =>
    match el with
    | .field f => some f.name
    | .other => none)

/-- The enum pass of `parseProto`: every enum is skipped when a nonempty
name filter is not matched, and contributes its field names otherwise. -/
def enumEntries (enums : List ProtoEnum) (namePre nameSuf : String) : List String :=
  enums.flatMap (fun e =>
    if namePre != "" && !goHasPre e.name namePre then []
    else if nameSuf != "" && !goHasSuf e.name nameSuf then []
    else enumFieldNames e)

/-- Modelled from the spec (section 4.1): an enum is included exactly when its
name satisfies both filters, an empty filter being always satisfied. Stated to
be compared with the filtering in `enumEntries`. -/
def specIncluded (namePre nameSuf : String) (e : ProtoEnum) : Bool :=
  (namePre == "" || goHasPre e.name namePre) && (nameSuf == "" || goHasSuf e.name nameSuf)

/-! ### Validation-rule pass of `parseProto` (`src/main.go` lines 141-179) -/

/-- Mode of the raw-text scanner: outside any validation block, or inside one
holding the pending `id` and `message` values. -/
inductive VMode
  | seeking
  | inBlock (id msg : String)

/-- Full state of the raw-text scanner: mode, the key list collected so far
(the enum pass seeds it), and the default-message map. -/
structure VState where
  mode : VMode
  entries : List String
  msgs : GoMap

/-- The marker substring that opens a validation-rule block. -/
def markerLine (s : String) : Bool :=
  containsSub "(buf.validate.field).cel".data s.data

/-- The value between the first and the last quote of a line, when Go's
`idStart > 0 && idEnd > idStart` test passes (both quotes exist and at least
one character separates them). -/
def extractQuoted (s : String) : Option String :=
  match chIdxOf '"' s.data, chIdxOf '"' s.data.reverse with
  | some i, some j' =>
    let j := s.data.length - 1 - j'
    if i + 1 < j then some ⟨(s.data.drop (i + 1)).take (j - (i + 1))⟩ else none
  | _, _ => none

/-- One line of the validation scanner. Seeking: a line containing the marker
enters a block with empty pending values. In a block, on the trimmed line: an
`id:` line with a valid quoted value appends it to the key list and replaces
the pending id; a `message:` line with a valid quoted value replaces the
pending message; a line opening with the block closers `}];` or `},` records
the pending message under the pending id (when nonempty) and leaves the block;
anything else is skipped. -/
def vStep (st : VState) (l : String) : VState :=
  match st.mode with
  | .seeking => if markerLine l then { st with mode := .inBlock "" "" } else st
  | .inBlock id msg =>
    let n := goTrim l
    if goHasPre n "id:" then
      match extractQuoted n with
      | some v => { st with mode := .inBlock v msg, entries := st.entries ++ [v] }
      | none => st
    else if goHasPre n "message:" then
      match extractQuoted n with
      | some v => { st with mode := .inBlock id v }
      | none => st
    else if goHasPre n "\x7d];" || goHasPre n "\x7d," then
      { st with mode := .seeking,
                msgs := if id ≠ "" then goInsert st.msgs id msg else st.msgs }
    else st

/-- Run the validation scanner over the raw lines of a file. -/
def runScan (lines : List String) (st : VState) : VState := lines.foldl vStep st

/-- The raw-text scan of `parseProto` alone: keys and default messages
collected from the validation blocks of a file. -/
def validationScan (lines : List String) : List String × GoMap :=
  let st := runScan lines ⟨.seeking, [], []⟩
  (st.entries, st.msgs)

/-- Model of `parseProto` on one file: the enum pass seeds the key list, the
raw-text pass appends validation ids and collects default messages. -/
def parseProto (enums : List ProtoEnum) (rawLines : List String)
    (namePre nameSuf : String) : List String × GoMap :=
  let st := runScan rawLines ⟨.seeking, enumEntries enums namePre nameSuf, []⟩
  (st.entries, st.msgs)

/-! ### Aggregation loop of `main` (`src/main.go` lines 54-72) -/

/-- One file's contribution to the aggregate: each entry not seen before is
appended to the key list and its message (Go map access, `""` default) is
recorded. -/
def addFileEntries (res : List String × GoMap) (acc : List String × GoMap) :
    List String × GoMap :=
  res.1.foldl (fun acc e =>
    if acc.1.contains e then acc
    else (acc.1 ++ [e], goInsert acc.2 e (goGet res.2 e))) acc

/-- Aggregation over the per-file extraction results. -/
def aggregate (results : List (List String × GoMap)) : List String × GoMap :=
  results.foldl (fun acc r => addFileEntries r acc) ([], [])

/-- The `main` loop over per-file parse outcomes: a failed file is logged and
skipped, a successful one is merged. -/
def collectAll (results : List (Except String (List String × GoMap))) :
    List String × GoMap :=
  results.foldl (fun acc r =>
    match r with
    | .error _ => acc
    | .ok res => addFileEntries res acc) ([], [])

/-- Modelled from the spec (section 3): each key once, in first-seen order
(keep the first occurrence, drop every later copy). -/
def dedupFirst : List String → List String
  | [] => []
  | x :: xs => x :: (dedupFirst xs).filter (fun y => y != x)

/-- Modelled from the spec (section 4.2): the default message of the first
file whose key list contains `k` (Go map access, `""` default). -/
def firstMsg : List (List String × GoMap) → String → Option String
  | [], _ => none
  | r :: rest, k => if k ∈ r.1 then some (goGet r.2 k) else firstMsg rest k

/-- The key-message pairs one file feeds to the aggregation loop, in order. -/
def filePairs (res : List String × GoMap) : List (String × String) :=
  res.1.map (fun e => (e, goGet res.2 e))

/-- One aggregation step on a key-message pair. -/
def pStep (acc : List String × GoMap) (p : String × String) : List String × GoMap :=
  if acc.1.contains p.1 then acc else (acc.1 ++ [p.1], goInsert acc.2 p.1 p.2)

/-- First-wins lookup over a pair list (the value the aggregation keeps). -/
def pairsFirst : List (String × String) → String → Option String
  | [], _ => none
  | p :: rest, k => if p.1 = k then some p.2 else pairsFirst rest k

/-- A line that is inert inside a validation block: its trimmed text opens
with none of the id, message, or block-closing tokens. -/
def neutralLine (l : String) : Bool :=
  !(goHasPre (goTrim l) "id:") && !(goHasPre (goTrim l) "message:") &&
  !(goHasPre (goTrim l) "\x7d];") && !(goHasPre (goTrim l) "\x7d,")

/-- A line that does not close a validation block. -/
def noCloseLine (l : String) : Bool :=
  !(goHasPre (goTrim l) "\x7d];") && !(goHasPre (goTrim l) "\x7d,")

/-! ### Lemmas about the Go map model -/

theorem goFind_append (m l : GoMap) (k : String) :
    goFind (m ++ l) k = (goFind l k).or (goFind m k) := by
  unfold goFind
  rw [List.reverse_append, List.find?_append]
  cases l.reverse.find? (fun p => p.1 == k) <;> simp [Option.or]

theorem goFind_one (a v k : String) :
    goFind [(a, v)] k = if a = k then some v else none := by
  by_cases h : a = k
  · simp [goFind, List.find?_cons, h]
  · have hb : (a == k) = false := by simp [h]
    simp [goFind, List.find?_cons, hb, h]

theorem goFind_insert (m : GoMap) (a v k : String) :
    goFind (goInsert m a v) k = if a = k then some v else goFind m k := by
  rw [goInsert, goFind_append, goFind_one]
  by_cases h : a = k
  · rw [if_pos h, if_pos h]
    cases goFind m k <;> rfl
  · rw [if_neg h, if_neg h]
    cases goFind m k <;> rfl

theorem goFind_cons (p : String × String) (m : GoMap) (k : String) :
    goFind (p :: m) k = (goFind m k).or (if p.1 = k then some p.2 else none) := by
  calc goFind (p :: m) k = goFind ([p] ++ m) k := rfl
    _ = (goFind m k).or (goFind [(p.1, p.2)] k) := goFind_append ..
    _ = (goFind m k).or (if p.1 = k then some p.2 else none) := by rw [goFind_one]

theorem goFind_map_self (l : List String) (f : String → String) (k : String) :
    goFind (l.map (fun e => (e, f e))) k = if k ∈ l then some (f k) else none := by
  induction l with
  | nil => simp [goFind]
  | cons e rest ih =>
    rw [List.map_cons, goFind_cons, ih]
    by_cases hr : k ∈ rest
    · have : k ∈ e :: rest := List.mem_cons_of_mem _ hr
      simp [hr, this]
    · by_cases he : e = k
      · subst he
        simp [hr]
      · have hm : k ∉ e :: rest := by
          intro hc
          rcases List.mem_cons.mp hc with h1 | h1
          · exact he h1.symm
          · exact hr h1
        simp [hr, he, hm]

/-! ### Character-level lemmas -/

theorem chPre_self_append (p rest : List Char) : chPre p (p ++ rest) = true := by
  induction p with
  | nil => rfl
  | cons c cs ih => simp [chPre, ih]

theorem chPre_cons_ne (p c : Char) (ps cs : List Char) (h : (p == c) = false) :
    chPre (p :: ps) (c :: cs) = false := by
  simp [chPre, h]

theorem chDropEnd_append_sat (p : Char → Bool) (l : List Char) (a : Char) (h : p a = true) :
    chDropEnd p (l ++ [a]) = chDropEnd p l := by
  unfold chDropEnd
  rw [List.reverse_append]
  simp [List.dropWhile_cons, h]

theorem goTrim_fix (a b : Char) (mid : List Char) (ha : goIsSpace a = false)
    (hb : goIsSpace b = false) :
    goTrim ⟨a :: (mid ++ [b])⟩ = ⟨a :: (mid ++ [b])⟩ := by
  unfold goTrim chDropEnd
  simp [List.dropWhile_cons, ha, hb, List.reverse_cons, List.reverse_append,
    List.dropWhile_append]

theorem hdr_data (k : String) : ("[" ++ k ++ "]").data = '[' :: (k.data ++ [']']) := by
  simp only [String.data_append, List.append_assoc]
  rfl

theorem oth_data (v : String) :
    ("other = \"" ++ v ++ "\"").data = "other = ".data ++ ('"' :: (v.data ++ ['"'])) := by
  simp only [String.data_append, List.append_assoc]
  rfl

theorem goTrimQuotes_quoted (v : String) :
    goTrimQuotes ⟨'"' :: (v.data ++ ['"'])⟩ = goTrimQuotes v := by
  unfold goTrimQuotes
  have h1 : (('"' : Char) == '"') = true := rfl
  simp only [List.dropWhile_cons, h1, if_true]
  rw [List.dropWhile_append]
  by_cases he : (v.data.dropWhile (· == '"')).isEmpty
  · have : v.data.dropWhile (· == '"') = [] := by
      cases hval : v.data.dropWhile (· == '"') with
      | nil => rfl
      | cons x xs => rw [hval] at he; simp at he
    simp [he, this, chDropEnd]
  · simp only [he, if_neg, Bool.false_eq_true, not_false_eq_true, if_false]
    exact congrArg String.mk
      (chDropEnd_append_sat (· == '"') (v.data.dropWhile (· == '"')) '"' (by decide))

/-! ### How the catalog reader sees the generator's own output -/

theorem scanTOML_append (a b : List String) (st : TState) :
    scanTOML (a ++ b) st = scanTOML b (scanTOML a st) :=
  List.foldl_append ..

theorem goTrim_hdr (k : String) : goTrim ("[" ++ k ++ "]") = "[" ++ k ++ "]" := by
  have h : ("[" ++ k ++ "]") = (⟨'[' :: (k.data ++ [']'])⟩ : String) :=
    congrArg String.mk (hdr_data k)
  rw [h]
  exact goTrim_fix '[' ']' k.data (by decide) (by decide)

theorem goTrim_oth (v : String) :
    goTrim ("other = \"" ++ v ++ "\"") = "other = \"" ++ v ++ "\"" := by
  have hd : ("other = \"" ++ v ++ "\"").data =
      'o' :: ((['t', 'h', 'e', 'r', ' ', '=', ' ', '"'] ++ v.data) ++ ['"']) := by
    rw [oth_data]
    simp [List.append_assoc]
  have h : ("other = \"" ++ v ++ "\"") =
      (⟨'o' :: ((['t', 'h', 'e', 'r', ' ', '=', ' ', '"'] ++ v.data) ++ ['"'])⟩ : String) :=
    congrArg String.mk hd
  rw [h]
  exact goTrim_fix 'o' '"' _ (by decide) (by decide)

theorem tStep_hdr (st : TState) (k : String) :
    tStep st ("[" ++ k ++ "]") = { st with cur := k } := by
  have h1 : goHasPre ("[" ++ k ++ "]") "[" = true := by
    unfold goHasPre
    rw [hdr_data]
    simp [chPre]
  have h2 : goHasSuf ("[" ++ k ++ "]") "]" = true := by
    unfold goHasSuf
    rw [hdr_data]
    simp [List.reverse_cons, List.reverse_append, chPre]
  have h3 : ((("[" ++ k ++ "]").data.drop 1).dropLast) = k.data := by
    rw [hdr_data]
    simp [List.dropLast_concat]
  unfold tStep
  rw [goTrim_hdr]
  simp only [h1, h2, Bool.and_self, if_true, h3]

theorem tStep_oth (st : TState) (v : String) (h : st.cur ≠ "") :
    tStep st ("other = \"" ++ v ++ "\"") =
      { st with acc := goInsert st.acc st.cur (goTrimQuotes v) } := by
  have h1 : goHasPre ("other = \"" ++ v ++ "\"") "[" = false := by
    unfold goHasPre
    rw [oth_data]
    exact chPre_cons_ne '[' 'o' _ _ (by decide)
  have h2 : goHasPre ("other = \"" ++ v ++ "\"") "other = " = true := by
    unfold goHasPre
    rw [oth_data]
    exact chPre_self_append _ _
  have h3 : (("other = \"" ++ v ++ "\"").data.drop 8) = '"' :: (v.data ++ ['"']) := by
    rw [oth_data]
    have hl : ("other = ".data).length = 8 := by decide
    rw [← hl, List.drop_left]
  unfold tStep
  rw [goTrim_oth]
  simp only [h1, h2, h3, Bool.false_and, Bool.false_eq_true, if_false, if_true, h,
    ite_true, goTrimQuotes_quoted]
  rw [if_pos h]

theorem tStep_blank (st : TState) : tStep st "" = st := rfl

theorem scanTOML_gen (entries : List String) (val : String → String) (st : TState)
    (hne : ∀ e ∈ entries, e ≠ "") :
    ∃ c, scanTOML (entries.flatMap (fun e => tomlBlock e (val e))) st =
      ⟨c, st.acc ++ entries.map (fun e => (e, goTrimQuotes (val e)))⟩ := by
  induction entries generalizing st with
  | nil =>
    exact ⟨st.cur, by simp [scanTOML]⟩
  | cons e rest ih =>
    rw [List.flatMap_cons, scanTOML_append]
    have hstep : scanTOML (tomlBlock e (val e)) st =
        ⟨e, st.acc ++ [(e, goTrimQuotes (val e))]⟩ := by
      unfold scanTOML tomlBlock
      simp only [List.foldl_cons, List.foldl_nil]
      rw [tStep_hdr, tStep_oth _ _ (by simpa using hne e (List.mem_cons_self e rest)),
        tStep_blank]
      rfl
    rw [hstep]
    obtain ⟨c, hc⟩ := ih ⟨e, st.acc ++ [(e, goTrimQuotes (val e))]⟩
      (fun x hx => hne x (List.mem_cons_of_mem _ hx))
    refine ⟨c, ?_⟩
    rw [hc]
    simp

theorem loadTOML_gen (entries : List String) (messages existing : GoMap)
    (hne : ∀ e ∈ entries, e ≠ "") (k : String) :
    goFind (loadTOML (genLines entries messages existing)) k =
      if k ∈ entries then some (goTrimQuotes (mergedValue existing messages k)) else none := by
  obtain ⟨c, hc⟩ := scanTOML_gen entries (mergedValue existing messages) ⟨"", []⟩ hne
  unfold loadTOML genLines
  rw [hc]
  simp only [List.nil_append]
  exact goFind_map_self entries _ k

/-! ### Idempotence of quote trimming, and trimmedness of loaded values -/

theorem dropWhile_idem (p : Char → Bool) (l : List Char) :
    (l.dropWhile p).dropWhile p = l.dropWhile p := by
  induction l with
  | nil => rfl
  | cons c rest ih =>
    by_cases hp : p c
    · simp [List.dropWhile_cons, hp, ih]
    · simp [List.dropWhile_cons, hp]

theorem dropWhile_head_false (p : Char → Bool) (l : List Char) (c : Char) (m : List Char)
    (h : l.dropWhile p = c :: m) : p c = false := by
  induction l with
  | nil => simp [List.dropWhile_nil] at h
  | cons x rest ih =>
    by_cases hp : p x
    · rw [List.dropWhile_cons, if_pos hp] at h
      exact ih h
    · rw [List.dropWhile_cons, if_neg hp] at h
      cases h
      simpa using hp

theorem chDropEnd_idem (p : Char → Bool) (l : List Char) :
    chDropEnd p (chDropEnd p l) = chDropEnd p l := by
  unfold chDropEnd
  rw [List.reverse_reverse, dropWhile_idem]

theorem chDropEnd_cons_false (p : Char → Bool) (c : Char) (l : List Char)
    (h : p c = false) : chDropEnd p (c :: l) = c :: chDropEnd p l := by
  unfold chDropEnd
  rw [List.reverse_cons, List.dropWhile_append]
  by_cases he : (l.reverse.dropWhile p).isEmpty
  · have h0 : l.reverse.dropWhile p = [] := by
      cases hval : l.reverse.dropWhile p with
      | nil => rfl
      | cons x xs => rw [hval] at he; simp at he
    simp [he, h0, List.dropWhile_cons, h]
  · simp only [he, Bool.false_eq_true, if_false]
    rw [List.reverse_append]
    simp

theorem goTrimQuotes_idem (s : String) : goTrimQuotes (goTrimQuotes s) = goTrimQuotes s := by
  unfold goTrimQuotes
  simp only
  cases hY : s.data.dropWhile (· == '"') with
  | nil => simp [chDropEnd]
  | cons c m =>
    have hc : ((· == '"') c) = false := dropWhile_head_false (· == '"') s.data c m hY
    rw [chDropEnd_cons_false (· == '"') c m hc]
    simp only [List.dropWhile_cons, hc, Bool.false_eq_true, if_false]
    rw [chDropEnd_cons_false (· == '"') c (chDropEnd (· == '"') m) hc,
      chDropEnd_idem (· == '"') m]

theorem tStep_acc (st : TState) (l : String) :
    (tStep st l).acc = st.acc ∨
      ∃ x, (tStep st l).acc = goInsert st.acc st.cur (goTrimQuotes x) := by
  unfold tStep
  simp only
  split
  · left; rfl
  · split
    · split
      · right; exact ⟨_, rfl⟩
      · left; rfl
    · left; rfl

theorem scanTOML_values_trimmed (lines : List String) (st : TState)
    (hst : ∀ k v, goFind st.acc k = some v → goTrimQuotes v = v) :
    ∀ k v, goFind (scanTOML lines st).acc k = some v → goTrimQuotes v = v := by
  induction lines generalizing st with
  | nil => exact hst
  | cons l rest ih =>
    have hstep : scanTOML (l :: rest) st = scanTOML rest (tStep st l) := rfl
    rw [hstep]
    apply ih
    rcases tStep_acc st l with hcase | ⟨x, hcase⟩ <;> rw [hcase]
    · exact hst
    · intro k v hv
      rw [goFind_insert] at hv
      by_cases hk : st.cur = k
      · rw [if_pos hk] at hv
        cases hv
        exact goTrimQuotes_idem x
      · rw [if_neg hk] at hv
        exact hst k v hv

theorem loadOpt_values_trimmed (prior : Option (List String)) (k v : String)
    (h : goFind (loadOpt prior) k = some v) : goTrimQuotes v = v := by
  cases prior with
  | none => simp [loadOpt, goFind] at h
  | some lines =>
    exact scanTOML_values_trimmed lines ⟨"", []⟩ (fun k v hv => by simp [goFind] at hv) k v h

/-! ### The merge rule equals its specification -/

theorem mergedValue_eq_specValue (existing messages : GoMap) (k : String) :
    mergedValue existing messages k = specValue existing messages k := by
  unfold mergedValue specValue entryMapVal goGet
  cases hf : goFind existing k with
  | none =>
    simp only [if_pos rfl]
    cases goFind messages k <;> rfl
  | some v =>
    by_cases hv : v = ""
    · subst hv
      simp only [if_pos rfl, ne_eq, not_true_eq_false, if_false]
      cases goFind messages k <;> rfl
    · simp only [if_neg hv, ne_eq, not_false_eq_true, if_true]
      rw [if_pos hv]

/-! ### Claim theorems -/

/-- C8: for every file path, when the catalog file does not exist,
`loadExistingTOML` returns an empty key-to-text mapping and no error; the
absence of a prior catalog is never a failure. -/
theorem claim_C8_absent_catalog :
    loadExistingTOML none = Except.ok ([] : GoMap) ∧ ∀ k, goFind [] k = none :=
  ⟨rfl, fun _ => rfl⟩

theorem enumContribution (e : ProtoEnum) (p s : String) :
    (if p != "" && !goHasPre e.name p then []
     else if s != "" && !goHasSuf e.name s then []
     else enumFieldNames e) =
      (if specIncluded p s e then enumFieldNames e else []) := by
  unfold specIncluded
  by_cases h1 : (p == "") = true <;> by_cases h2 : (s == "") = true <;>
    by_cases h3 : goHasPre e.name p <;> by_cases h4 : goHasSuf e.name s <;>
      simp [bne, h1, h2, h3, h4]

theorem flatMap_if_filter (enums : List ProtoEnum) (q : ProtoEnum → Bool) :
    enums.flatMap (fun e => if q e then enumFieldNames e else []) =
      (enums.filter q).flatMap enumFieldNames := by
  induction enums with
  | nil => rfl
  | cons e rest ih =>
    by_cases h : q e <;> simp [List.flatMap_cons, List.filter_cons, h, ih]

/-- C5: an enum contributes its field names, in declaration order, exactly
when its name passes both the name-lead and the name-tail filter (an empty
filter always passes); concretely FooError passes the Error-ending filter,
FooStatus does not, and with both filters empty every enum contributes. -/
theorem claim_C5_enum_filters :
    (∀ (enums : List ProtoEnum) (p s : String),
      enumEntries enums p s = (enums.filter (specIncluded p s)).flatMap enumFieldNames) ∧
    enumEntries [⟨"FooError", [.field ⟨"A"⟩, .other, .field ⟨"B"⟩]⟩] "" "Error" = ["A", "B"] ∧
    enumEntries [⟨"FooStatus", [.field ⟨"A"⟩, .other, .field ⟨"B"⟩]⟩] "" "Error" = [] ∧
    enumEntries [⟨"FooError", [.field ⟨"A"⟩]⟩, ⟨"FooStatus", [.field ⟨"B"⟩]⟩] "" "" =
      ["A", "B"] := by
  refine ⟨?_, by decide, by decide, by decide⟩
  intro enums p s
  unfold enumEntries
  rw [← flatMap_if_filter enums (specIncluded p s)]
  exact List.flatMap_congr (fun e _ => enumContribution e p s)

/-- C2: the value `generateTOML` writes for each key, in order, is the
existing catalog value when present and non-empty, otherwise the default
message when one exists, otherwise the empty string; concretely a new key
with a default message and no prior entry renders other = "must not be
empty", and a new key with neither renders other = "". -/
theorem claim_C2_value_choice :
    (∀ (entries : List String) (messages : GoMap) (prior : Option (List String)),
      generateTOML entries messages prior =
        Except.ok (entries.flatMap
          (fun k => tomlBlock k (specValue (loadOpt prior) messages k)))) ∧
    generateTOML ["k1"] [("k1", "must not be empty")] none =
      Except.ok ["[k1]", "other = \"must not be empty\"", ""] ∧
    generateTOML ["k1"] [] none = Except.ok ["[k1]", "other = \"\"", ""] := by
  refine ⟨?_, rfl, rfl⟩
  intro entries messages prior
  have h1 : generateTOML entries messages prior =
      Except.ok (genLines entries messages (loadOpt prior)) := by
    cases prior <;> rfl
  rw [h1]
  unfold genLines
  exact congrArg Except.ok
    (List.flatMap_congr (fun k _ => by rw [mergedValue_eq_specValue]))

/-- C7: a source file whose parse fails contributes no keys and no default
messages, and the run continues with the remaining files unchanged. -/
theorem claim_C7_parse_failure_skipped (pre post : List (Except String (List String × GoMap)))
    (msg : String) :
    collectAll (pre ++ Except.error msg :: post) = collectAll (pre ++ post) := by
  unfold collectAll
  rw [List.foldl_append, List.foldl_append, List.foldl_cons]

/-- C1 counterexample: the key a is extracted and present in the prior
catalog (with empty stored TranslatedText), yet regeneration writes the
default message m in its value line instead of writing the stored value back
unchanged. -/
theorem claim_C1_counterexample :
    goFind (loadOpt (some ["[a]", "other = \"\"", ""])) "a" = some "" ∧
    generateTOML ["a"] [("a", "m")] (some ["[a]", "other = \"\"", ""]) =
      Except.ok ["[a]", "other = \"m\"", ""] ∧
    goFind (loadTOML ["[a]", "other = \"m\"", ""]) "a" = some "m" ∧
    ("m" : String) ≠ "" :=
  ⟨by decide, rfl, by decide, by decide⟩

/-- C1 (amended): regeneration preserves every non-empty stored TranslatedText
of a key still extracted — the value line is written back unchanged and the
regenerated file still associates it to the key — while a key stored with
empty text is instead given the default message; and every key absent from
the extracted list is dropped from the regenerated file (keys are nonempty,
as extraction guarantees). -/
theorem claim_C1_amended (entries : List String) (messages : GoMap)
    (prior : Option (List String)) (k : String) (hne : ∀ e ∈ entries, e ≠ "") :
    (k ∈ entries → ∀ v, goFind (loadOpt prior) k = some v → v ≠ "" →
      ("other = \"" ++ v ++ "\"") ∈ genLines entries messages (loadOpt prior) ∧
      goFind (loadTOML (genLines entries messages (loadOpt prior))) k = some v) ∧
    (k ∉ entries →
      goFind (loadTOML (genLines entries messages (loadOpt prior))) k = none) := by
  constructor
  · intro hk v hv hvne
    have hmv : mergedValue (loadOpt prior) messages k = v := by
      unfold mergedValue entryMapVal
      rw [hv, if_neg hvne]
    refine ⟨?_, ?_⟩
    · unfold genLines
      refine List.mem_flatMap.mpr ⟨k, hk, ?_⟩
      rw [hmv]
      unfold tomlBlock
      simp
    · rw [loadTOML_gen entries messages _ hne k, if_pos hk, hmv,
        loadOpt_values_trimmed prior k v hv]
  · intro hk
    rw [loadTOML_gen entries messages _ hne k, if_neg hk]

/-- Witness for the amended C1 at a concrete input. -/
theorem claim_C1_witness :
    (("other = \"" ++ "hello" ++ "\"") ∈
        genLines ["a"] [] (loadOpt (some ["[a]", "other = \"hello\"", ""])) ∧
      goFind (loadTOML (genLines ["a"] []
        (loadOpt (some ["[a]", "other = \"hello\"", ""])))) "a" = some "hello") ∧
    goFind (loadTOML (genLines ["a"] []
      (loadOpt (some ["[a]", "other = \"hello\"", ""])))) "b" = none :=
  ⟨(claim_C1_amended ["a"] [] (some ["[a]", "other = \"hello\"", ""]) "a"
      (by decide)).1 (by decide) "hello" (by decide) (by decide),
    (claim_C1_amended ["a"] [] (some ["[a]", "other = \"hello\"", ""]) "b"
      (by decide)).2 (by decide)⟩

/-- C3 counterexample: with the default message x" (ending in a quote
character) the second run differs byte-for-byte from the first, because
re-reading the written value strips its surrounding quotes. -/
theorem claim_C3_counterexample :
    generateTOML ["a"] [("a", "x\"")] none = Except.ok ["[a]", "other = \"x\"\"", ""] ∧
    generateTOML ["a"] [("a", "x\"")] (some ["[a]", "other = \"x\"\"", ""]) =
      Except.ok ["[a]", "other = \"x\"", ""] ∧
    renderFile ["[a]", "other = \"x\"", ""] ≠ renderFile ["[a]", "other = \"x\"\"", ""] :=
  ⟨rfl, rfl, by decide⟩

theorem mergedValue_of_reload (messages ex2 : GoMap) (k v1 : String)
    (hex2 : goFind ex2 k = some (goTrimQuotes v1))
    (hcase : (v1 ≠ "" ∧ goTrimQuotes v1 = v1) ∨
      (v1 = goGet messages k ∧ goTrimQuotes (goGet messages k) = goGet messages k)) :
    mergedValue ex2 messages k = v1 := by
  unfold mergedValue entryMapVal
  rw [hex2]
  rcases hcase with ⟨hvne, hfix⟩ | ⟨hmg, hfix⟩
  · rw [hfix, if_neg hvne]
  · rw [hmg, hfix]
    by_cases hz : goGet messages k = ""
    · rw [if_pos hz]
    · rw [if_neg hz]

/-- C3 (amended): when every extracted key is nonempty (as extraction
guarantees) and no default message of an extracted key begins or ends with a
quote character, running the generator on its own first output reproduces
that output exactly, hence byte-identically: the first output is a fixed
point. Without the quote proviso the counterexample shows the second run can
differ. -/
theorem claim_C3_amended (entries : List String) (messages : GoMap)
    (prior : Option (List String)) (out1 : List String)
    (hne : ∀ e ∈ entries, e ≠ "")
    (hq : ∀ k ∈ entries, goTrimQuotes (goGet messages k) = goGet messages k)
    (h1 : generateTOML entries messages prior = Except.ok out1) :
    generateTOML entries messages (some out1) = Except.ok out1 ∧
    ∀ out2, generateTOML entries messages (some out1) = Except.ok out2 →
      renderFile out2 = renderFile out1 := by
  have hgen : generateTOML entries messages prior =
      Except.ok (genLines entries messages (loadOpt prior)) := by
    cases prior <;> rfl
  rw [hgen] at h1
  injection h1 with h1
  subst h1
  have hmain : genLines entries messages
      (loadTOML (genLines entries messages (loadOpt prior))) =
      genLines entries messages (loadOpt prior) := by
    unfold genLines
    refine List.flatMap_congr (fun k hk => ?_)
    refine congrArg (tomlBlock k) ?_
    have hex2 : goFind (loadTOML (genLines entries messages (loadOpt prior))) k =
        some (goTrimQuotes (mergedValue (loadOpt prior) messages k)) := by
      rw [loadTOML_gen entries messages _ hne k, if_pos hk]
    refine mergedValue_of_reload messages _ k _ hex2 ?_
    cases hf : goFind (loadOpt prior) k with
    | none =>
      right
      have hmg : mergedValue (loadOpt prior) messages k = goGet messages k := by
        unfold mergedValue entryMapVal
        rw [hf]
        simp
      exact ⟨hmg, hq k hk⟩
    | some v =>
      by_cases hz : v = ""
      · right
        have hmg : mergedValue (loadOpt prior) messages k = goGet messages k := by
          unfold mergedValue entryMapVal
          rw [hf]
          simp [hz]
        exact ⟨hmg, hq k hk⟩
      · left
        have hmg : mergedValue (loadOpt prior) messages k = v := by
          unfold mergedValue entryMapVal
          rw [hf]
          simp [hz]
        rw [hmg]
        exact ⟨hz, loadOpt_values_trimmed prior k v hf⟩
  constructor
  · show Except.ok (genLines entries messages
      (loadTOML (genLines entries messages (loadOpt prior)))) = _
    rw [hmain]
  · intro out2 hout2
    have : Except.ok (genLines entries messages
        (loadTOML (genLines entries messages (loadOpt prior)))) = Except.ok out2 := hout2
    rw [hmain] at this
    injection this with this
    rw [this]

/-- Witness for the amended C3 at a concrete input. -/
theorem claim_C3_witness :
    generateTOML ["a"] [("a", "m")] (some ["[a]", "other = \"m\"", ""]) =
      Except.ok ["[a]", "other = \"m\"", ""] :=
  (claim_C3_amended ["a"] [("a", "m")] none ["[a]", "other = \"m\"", ""]
    (by decide) (by decide) rfl).1

/-- C9: in `loadExistingTOML`, later occurrences overwrite earlier ones: a
final header-plus-value block wins over any earlier file content for that
key, and when several value lines follow one header the last value line
wins. -/
theorem claim_C9_last_wins (L : List String) (k v v1 v2 : String) (hk : k ≠ "")
    (hv : goTrimQuotes v = v) (hv2 : goTrimQuotes v2 = v2) :
    goFind (loadTOML (L ++ ["[" ++ k ++ "]", "other = \"" ++ v ++ "\""])) k = some v ∧
    goFind (loadTOML (L ++ ["[" ++ k ++ "]", "other = \"" ++ v1 ++ "\"",
      "other = \"" ++ v2 ++ "\""])) k = some v2 := by
  constructor
  · unfold loadTOML
    rw [scanTOML_append]
    have e1 : tStep (scanTOML L ⟨"", []⟩) ("[" ++ k ++ "]") =
        ⟨k, (scanTOML L ⟨"", []⟩).acc⟩ := tStep_hdr ..
    have e2 : tStep (⟨k, (scanTOML L ⟨"", []⟩).acc⟩ : TState) ("other = \"" ++ v ++ "\"") =
        ⟨k, goInsert (scanTOML L ⟨"", []⟩).acc k (goTrimQuotes v)⟩ :=
      tStep_oth ⟨k, (scanTOML L ⟨"", []⟩).acc⟩ v hk
    have hblock : scanTOML ["[" ++ k ++ "]", "other = \"" ++ v ++ "\""]
        (scanTOML L ⟨"", []⟩) =
        ⟨k, goInsert (scanTOML L ⟨"", []⟩).acc k (goTrimQuotes v)⟩ := by
      show tStep (tStep (scanTOML L ⟨"", []⟩) ("[" ++ k ++ "]"))
        ("other = \"" ++ v ++ "\"") = _
      rw [e1, e2]
    rw [hblock]
    show goFind (goInsert (scanTOML L ⟨"", []⟩).acc k (goTrimQuotes v)) k = some v
    rw [goFind_insert, if_pos rfl, hv]
  · unfold loadTOML
    rw [scanTOML_append]
    have e1 : tStep (scanTOML L ⟨"", []⟩) ("[" ++ k ++ "]") =
        ⟨k, (scanTOML L ⟨"", []⟩).acc⟩ := tStep_hdr ..
    have e2 : tStep (⟨k, (scanTOML L ⟨"", []⟩).acc⟩ : TState) ("other = \"" ++ v1 ++ "\"") =
        ⟨k, goInsert (scanTOML L ⟨"", []⟩).acc k (goTrimQuotes v1)⟩ :=
      tStep_oth ⟨k, (scanTOML L ⟨"", []⟩).acc⟩ v1 hk
    have e3 : tStep (⟨k, goInsert (scanTOML L ⟨"", []⟩).acc k (goTrimQuotes v1)⟩ : TState)
        ("other = \"" ++ v2 ++ "\"") =
        ⟨k, goInsert (goInsert (scanTOML L ⟨"", []⟩).acc k (goTrimQuotes v1)) k
          (goTrimQuotes v2)⟩ :=
      tStep_oth ⟨k, goInsert (scanTOML L ⟨"", []⟩).acc k (goTrimQuotes v1)⟩ v2 hk
    have hblock : scanTOML ["[" ++ k ++ "]", "other = \"" ++ v1 ++ "\"",
        "other = \"" ++ v2 ++ "\""] (scanTOML L ⟨"", []⟩) =
        ⟨k, goInsert (goInsert (scanTOML L ⟨"", []⟩).acc k (goTrimQuotes v1)) k
          (goTrimQuotes v2)⟩ := by
      show tStep (tStep (tStep (scanTOML L ⟨"", []⟩) ("[" ++ k ++ "]"))
        ("other = \"" ++ v1 ++ "\"")) ("other = \"" ++ v2 ++ "\"") = _
      rw [e1, e2, e3]
    rw [hblock]
    show goFind (goInsert (goInsert (scanTOML L ⟨"", []⟩).acc k (goTrimQuotes v1)) k
      (goTrimQuotes v2)) k = some v2
    rw [goFind_insert, if_pos rfl, hv2]

/-- Witness for C9 at a concrete input with a duplicate header. -/
theorem claim_C9_witness :
    goFind (loadTOML (["[a]", "other = \"x\""] ++
      ["[" ++ "a" ++ "]", "other = \"" ++ "y" ++ "\""])) "a" = some "y" ∧
    goFind (loadTOML (["[a]", "other = \"x\""] ++ ["[" ++ "a" ++ "]",
      "other = \"" ++ "p" ++ "\"", "other = \"" ++ "q" ++ "\""])) "a" = some "q" :=
  claim_C9_last_wins ["[a]", "other = \"x\""] "a" "y" "p" "q"
    (by decide) (by decide) (by decide)

/-! ### Aggregation lemmas -/

theorem filter_swap (p q : String → Bool) (l : List String) :
    (l.filter p).filter q = (l.filter q).filter p := by
  rw [List.filter_filter, List.filter_filter]
  exact List.filter_congr (fun a _ => Bool.and_comm ..)

theorem dedupFirst_cons (x : String) (l : List String) :
    dedupFirst (x :: l) = x :: (dedupFirst l).filter (fun y => y != x) := rfl

theorem dedupFirst_filter (p : String → Bool) (l : List String) :
    dedupFirst (l.filter p) = (dedupFirst l).filter p := by
  induction l with
  | nil => rfl
  | cons x xs ih =>
    by_cases hp : p x
    · rw [List.filter_cons_of_pos hp, dedupFirst_cons, dedupFirst_cons, ih,
        List.filter_cons_of_pos hp, filter_swap]
    · rw [List.filter_cons_of_neg hp, ih, dedupFirst_cons,
        List.filter_cons_of_neg hp, List.filter_filter]
      refine (List.filter_congr (fun y _ => ?_)).symm
      by_cases hyx : y = x
      · subst hyx
        simp [hp]
      · simp [bne, hyx]

theorem mem_dedupFirst (l : List String) (y : String) : y ∈ dedupFirst l ↔ y ∈ l := by
  induction l with
  | nil => simp [dedupFirst]
  | cons x xs ih =>
    rw [dedupFirst_cons]
    constructor
    · intro h
      rcases List.mem_cons.mp h with h1 | h1
      · exact h1 ▸ List.mem_cons_self x xs
      · exact List.mem_cons_of_mem x (ih.mp (List.mem_of_mem_filter h1))
    · intro h
      rcases List.mem_cons.mp h with h1 | h1
      · exact h1 ▸ List.mem_cons_self x _
      · by_cases hyx : y = x
        · exact hyx ▸ List.mem_cons_self x _
        · refine List.mem_cons_of_mem x (List.mem_filter.mpr ⟨ih.mpr h1, ?_⟩)
          simp [bne, hyx]

theorem dedupFirst_nodup (l : List String) : (dedupFirst l).Nodup := by
  induction l with
  | nil => exact List.nodup_nil
  | cons x xs ih =>
    rw [dedupFirst_cons]
    refine List.nodup_cons.mpr ⟨?_, ih.filter _⟩
    intro hx
    have := List.of_mem_filter hx
    simp at this

theorem addFileEntries_eq_pairs (res : List String × GoMap) (acc : List String × GoMap) :
    addFileEntries res acc = (filePairs res).foldl pStep acc := by
  unfold addFileEntries filePairs
  rw [List.foldl_map]
  rfl

theorem aggregate_eq_pairs_fold (results : List (List String × GoMap))
    (acc : List String × GoMap) :
    results.foldl (fun a r => addFileEntries r a) acc =
      (results.flatMap filePairs).foldl pStep acc := by
  induction results generalizing acc with
  | nil => rfl
  | cons r rest ih =>
    rw [List.foldl_cons, List.flatMap_cons, List.foldl_append, ih,
      addFileEntries_eq_pairs]

theorem pStep_fold_fst (l : List (String × String)) (accE : List String) (accM : GoMap) :
    (l.foldl pStep (accE, accM)).1 =
      accE ++ dedupFirst ((l.map Prod.fst).filter (fun e => !(accE.contains e))) := by
  induction l generalizing accE accM with
  | nil => simp [dedupFirst]
  | cons p rest ih =>
    rw [List.foldl_cons]
    by_cases hc : accE.contains p.1
    · have hstep : pStep (accE, accM) p = (accE, accM) := by
        unfold pStep
        rw [if_pos hc]
      rw [hstep, ih, List.map_cons,
        List.filter_cons_of_neg (by intro h; rw [hc] at h; exact Bool.false_ne_true h)]
    · have hcf : accE.contains p.1 = false := by
        cases hval : accE.contains p.1
        · rfl
        · exact absurd hval hc
      have hstep : pStep (accE, accM) p =
          (accE ++ [p.1], goInsert accM p.1 p.2) := by
        unfold pStep
        rw [if_neg hc]
      rw [hstep, ih, List.map_cons,
        List.filter_cons_of_pos (by simp only [hcf, Bool.not_false]),
        dedupFirst_cons, List.append_assoc, List.singleton_append]
      congr 2
      rw [← dedupFirst_filter (fun y => y != p.1), List.filter_filter]
      refine congrArg dedupFirst (List.filter_congr (fun y _ => ?_))
      by_cases h1 : y = p.1
      · subst h1
        simp
      · simp [h1, bne]

theorem contains_cons (x : String) (l : List String) (k : String) :
    (x :: l).contains k = ((k == x) || l.contains k) := by
  by_cases h1 : k = x <;> by_cases h2 : k ∈ l <;> simp [h1, h2]

theorem contains_append (a b : List String) (k : String) :
    (a ++ b).contains k = (a.contains k || b.contains k) := by
  by_cases h1 : k ∈ a <;> by_cases h2 : k ∈ b <;> simp [h1, h2]

theorem pairsFirst_cons (p : String × String) (rest : List (String × String)) (k : String) :
    pairsFirst (p :: rest) k = if p.1 = k then some p.2 else pairsFirst rest k := rfl

theorem pStep_fold_snd (l : List (String × String)) (accE : List String) (accM : GoMap)
    (hdom : ∀ k, (goFind accM k).isSome → accE.contains k = true) (k : String) :
    goFind ((l.foldl pStep (accE, accM)).2) k =
      if accE.contains k then goFind accM k else pairsFirst l k := by
  induction l generalizing accE accM with
  | nil =>
    rw [List.foldl_nil]
    by_cases hk : accE.contains k
    · rw [if_pos hk]
    · rw [if_neg hk]
      cases h : goFind accM k with
      | none => rfl
      | some v => exact absurd (hdom k (by rw [h]; rfl)) hk
  | cons p rest ih =>
    rw [List.foldl_cons]
    by_cases hce : accE.contains p.1
    · have hstep : pStep (accE, accM) p = (accE, accM) := by
        unfold pStep
        rw [if_pos hce]
      rw [hstep, ih accE accM hdom, pairsFirst_cons]
      by_cases hk : accE.contains k
      · rw [if_pos hk, if_pos hk]
      · rw [if_neg hk, if_neg hk, if_neg (fun h => hk (by rw [← h]; exact hce))]
    · have hstep : pStep (accE, accM) p = (accE ++ [p.1], goInsert accM p.1 p.2) := by
        unfold pStep
        rw [if_neg hce]
      have hdom' : ∀ k', (goFind (goInsert accM p.1 p.2) k').isSome →
          (accE ++ [p.1]).contains k' = true := by
        intro k' hs
        rw [goFind_insert] at hs
        by_cases h : p.1 = k'
        · subst h
          rw [contains_append, contains_cons]
          simp
        · rw [if_neg h] at hs
          rw [contains_append, hdom k' hs, Bool.true_or]
      rw [hstep, ih _ _ hdom', pairsFirst_cons]
      by_cases hk : accE.contains k
      · have h2 : (accE ++ [p.1]).contains k = true := by
          rw [contains_append, hk, Bool.true_or]
        have hpk : p.1 ≠ k := fun h => hce (h ▸ hk)
        rw [if_pos h2, if_pos hk, goFind_insert, if_neg hpk]
      · by_cases hpk : p.1 = k
        · have h2 : (accE ++ [p.1]).contains k = true := by
            rw [contains_append, hpk, contains_cons]
            simp
          rw [if_pos h2, if_neg hk, if_pos hpk, goFind_insert, if_pos hpk]
        · have hkf : accE.contains k = false := by
            cases hval : accE.contains k
            · rfl
            · exact absurd hval hk
          have h2 : (accE ++ [p.1]).contains k = false := by
            rw [contains_append, hkf, contains_cons]
            have : (k == p.1) = false := by
              simp only [beq_eq_false_iff_ne, ne_eq]
              exact fun h => hpk h.symm
            simp [this]
          rw [if_neg (by rw [h2]; exact Bool.false_ne_true), if_neg hk, if_neg hpk]

theorem pairsFirst_append (a b : List (String × String)) (k : String) :
    pairsFirst (a ++ b) k = (pairsFirst a k).or (pairsFirst b k) := by
  induction a with
  | nil => rfl
  | cons p rest ih =>
    rw [List.cons_append, pairsFirst_cons, pairsFirst_cons, ih]
    by_cases h : p.1 = k
    · rw [if_pos h, if_pos h]
      rfl
    · rw [if_neg h, if_neg h]

theorem pairsFirst_map_self (l : List String) (f : String → String) (k : String) :
    pairsFirst (l.map (fun e => (e, f e))) k = if k ∈ l then some (f k) else none := by
  induction l with
  | nil => simp [pairsFirst]
  | cons e rest ih =>
    rw [List.map_cons, pairsFirst_cons, ih]
    by_cases he : e = k
    · subst he
      simp
    · rw [if_neg he]
      by_cases hr : k ∈ rest
      · rw [if_pos hr, if_pos (List.mem_cons_of_mem _ hr)]
      · rw [if_neg hr,
          if_neg (fun hc => (List.mem_cons.mp hc).elim (fun h => he h.symm) hr)]

theorem firstMsg_cons (r : List String × GoMap) (rest : List (List String × GoMap))
    (k : String) :
    firstMsg (r :: rest) k = if k ∈ r.1 then some (goGet r.2 k) else firstMsg rest k := rfl

theorem pairsFirst_flatMap_firstMsg (results : List (List String × GoMap)) (k : String) :
    pairsFirst (results.flatMap filePairs) k = firstMsg results k := by
  induction results with
  | nil => rfl
  | cons r rest ih =>
    rw [List.flatMap_cons, pairsFirst_append, ih, firstMsg_cons]
    have hp : pairsFirst (filePairs r) k = if k ∈ r.1 then some (goGet r.2 k) else none :=
      pairsFirst_map_self r.1 (fun e => goGet r.2 e) k
    rw [hp]
    by_cases h : k ∈ r.1
    · rw [if_pos h, if_pos h]
      rfl
    · rw [if_neg h, if_neg h]
      cases firstMsg rest k <;> rfl

/-- C4: the aggregation loop of `main` yields each key exactly once, in
first-seen order across the per-file results in processing order, and assigns
each key the default message of the first file whose key list contains it
(the Go zero value when that file recorded none). -/
theorem claim_C4_aggregation (results : List (List String × GoMap)) :
    (aggregate results).1.Nodup ∧
    (aggregate results).1 = dedupFirst (results.flatMap (fun r => r.1)) ∧
    ∀ k, goFind (aggregate results).2 k = firstMsg results k := by
  have hagg : aggregate results = (results.flatMap filePairs).foldl pStep ([], []) :=
    aggregate_eq_pairs_fold results ([], [])
  have horder : (aggregate results).1 = dedupFirst (results.flatMap (fun r => r.1)) := by
    rw [hagg, pStep_fold_fst]
    simp only [List.nil_append]
    congr 1
    have hfilter :
        ((results.flatMap filePairs).map Prod.fst).filter
          (fun e => !(([] : List String).contains e)) =
          (results.flatMap filePairs).map Prod.fst :=
      List.filter_eq_self.mpr (fun a _ => rfl)
    rw [hfilter, List.map_flatMap]
    refine List.flatMap_congr (fun r _ => ?_)
    unfold filePairs
    rw [List.map_map]
    exact List.map_id r.1
  refine ⟨?_, horder, ?_⟩
  · rw [horder]
    exact dedupFirst_nodup _
  · intro k
    have hdom : ∀ k', (goFind ([] : GoMap) k').isSome = true →
        (([] : List String)).contains k' = true :=
      fun _ hs => absurd hs (fun h => Bool.false_ne_true h)
    rw [hagg, pStep_fold_snd (results.flatMap filePairs) [] [] hdom,
      if_neg (show ¬(([] : List String).contains k = true) from
        fun h => Bool.false_ne_true h)]
    exact pairsFirst_flatMap_firstMsg results k

/-! ### Validation-scanner lemmas -/

theorem runScan_append (a b : List String) (st : VState) :
    runScan (a ++ b) st = runScan b (runScan a st) :=
  List.foldl_append ..

theorem runScan_cons (l : String) (rest : List String) (st : VState) :
    runScan (l :: rest) st = runScan rest (vStep st l) := rfl

theorem vStep_nomarker (l : String) (es : List String) (ms : GoMap)
    (h : markerLine l = false) :
    vStep ⟨.seeking, es, ms⟩ l = ⟨.seeking, es, ms⟩ := by
  unfold vStep
  simp [h]

theorem runScan_seeking (lines : List String) (es : List String) (ms : GoMap)
    (h : ∀ l ∈ lines, markerLine l = false) :
    runScan lines ⟨.seeking, es, ms⟩ = ⟨.seeking, es, ms⟩ := by
  induction lines with
  | nil => rfl
  | cons l rest ih =>
    rw [runScan_cons, vStep_nomarker l es ms (h l (List.mem_cons_self l rest))]
    exact ih (fun x hx => h x (List.mem_cons_of_mem _ hx))

theorem vStep_marker (l : String) (es : List String) (ms : GoMap)
    (h : markerLine l = true) :
    vStep ⟨.seeking, es, ms⟩ l = ⟨.inBlock "" "", es, ms⟩ := by
  unfold vStep
  simp [h]

theorem vStep_neutral (l : String) (i m : String) (es : List String) (ms : GoMap)
    (h : neutralLine l = true) :
    vStep ⟨.inBlock i m, es, ms⟩ l = ⟨.inBlock i m, es, ms⟩ := by
  unfold neutralLine at h
  simp only [Bool.and_eq_true, Bool.not_eq_true'] at h
  obtain ⟨⟨⟨h1, h2⟩, h3⟩, h4⟩ := h
  unfold vStep
  simp [h1, h2, h3, h4]

theorem runScan_neutral (lines : List String) (i m : String) (es : List String) (ms : GoMap)
    (h : ∀ l ∈ lines, neutralLine l = true) :
    runScan lines ⟨.inBlock i m, es, ms⟩ = ⟨.inBlock i m, es, ms⟩ := by
  induction lines with
  | nil => rfl
  | cons l rest ih =>
    rw [runScan_cons, vStep_neutral l i m es ms (h l (List.mem_cons_self l rest))]
    exact ih (fun x hx => h x (List.mem_cons_of_mem _ hx))

theorem vStep_id (l : String) (i m v : String) (es : List String) (ms : GoMap)
    (hid : goHasPre (goTrim l) "id:" = true)
    (hex : extractQuoted (goTrim l) = some v) :
    vStep ⟨.inBlock i m, es, ms⟩ l = ⟨.inBlock v m, es ++ [v], ms⟩ := by
  unfold vStep
  simp [hid, hex]

theorem goHasPre_head_ne (s p1 p2 : String) (c1 c2 : Char) (cs1 cs2 : List Char)
    (h1 : p1.data = c1 :: cs1) (h2 : p2.data = c2 :: cs2) (hne : ¬c2 = c1)
    (h : goHasPre s p1 = true) : goHasPre s p2 = false := by
  unfold goHasPre at h ⊢
  rw [h1] at h
  rw [h2]
  cases hd : s.data with
  | nil =>
    rw [hd] at h
    exact absurd h (by simp [chPre])
  | cons c cs =>
    rw [hd] at h
    have hc : c1 = c := by
      have h' : c1 = c ∧ chPre cs1 cs = true := by simpa [chPre] using h
      exact h'.1
    subst hc
    have : (c2 == c1) = false := by
      simp [hne]
    simp [chPre, this]

theorem vStep_message (l : String) (i m v : String) (es : List String) (ms : GoMap)
    (hmsg : goHasPre (goTrim l) "message:" = true)
    (hex : extractQuoted (goTrim l) = some v) :
    vStep ⟨.inBlock i m, es, ms⟩ l = ⟨.inBlock i v, es, ms⟩ := by
  have hid : goHasPre (goTrim l) "id:" = false :=
    goHasPre_head_ne (goTrim l) "message:" "id:" 'm' 'i' _ _ rfl rfl (by decide) hmsg
  unfold vStep
  simp [hid, hmsg, hex]

theorem vStep_close (l : String) (i m : String) (es : List String) (ms : GoMap)
    (hcl : (goHasPre (goTrim l) "\x7d];" || goHasPre (goTrim l) "\x7d,") = true) :
    vStep ⟨.inBlock i m, es, ms⟩ l =
      ⟨.seeking, es, if i ≠ "" then goInsert ms i m else ms⟩ := by
  have hid : goHasPre (goTrim l) "id:" = false := by
    rcases Bool.or_eq_true .. |>.mp hcl with hc | hc
    · exact goHasPre_head_ne (goTrim l) "\x7d];" "id:" '}' 'i' _ _ rfl rfl (by decide) hc
    · exact goHasPre_head_ne (goTrim l) "\x7d," "id:" '}' 'i' _ _ rfl rfl (by decide) hc
  have hmsg : goHasPre (goTrim l) "message:" = false := by
    rcases Bool.or_eq_true .. |>.mp hcl with hc | hc
    · exact goHasPre_head_ne (goTrim l) "\x7d];" "message:" '}' 'm' _ _ rfl rfl (by decide) hc
    · exact goHasPre_head_ne (goTrim l) "\x7d," "message:" '}' 'm' _ _ rfl rfl (by decide) hc
  unfold vStep
  simp [hid, hmsg, hcl]

theorem vStep_noClose (l : String) (i m : String) (es : List String) (ms : GoMap)
    (h : noCloseLine l = true) :
    ∃ i2 m2 tail, vStep ⟨.inBlock i m, es, ms⟩ l = ⟨.inBlock i2 m2, es ++ tail, ms⟩ := by
  unfold noCloseLine at h
  simp only [Bool.and_eq_true, Bool.not_eq_true'] at h
  obtain ⟨h3, h4⟩ := h
  by_cases hid : goHasPre (goTrim l) "id:"
  · cases hex : extractQuoted (goTrim l) with
    | none =>
      refine ⟨i, m, [], ?_⟩
      unfold vStep
      simp [hid, hex]
    | some v =>
      refine ⟨v, m, [v], ?_⟩
      unfold vStep
      simp [hid, hex]
  · by_cases hmsg : goHasPre (goTrim l) "message:"
    · cases hex : extractQuoted (goTrim l) with
      | none =>
        refine ⟨i, m, [], ?_⟩
        unfold vStep
        simp [hid, hmsg, hex]
      | some v =>
        refine ⟨i, v, [], ?_⟩
        unfold vStep
        simp [hid, hmsg, hex]
    · refine ⟨i, m, [], ?_⟩
      unfold vStep
      simp [hid, hmsg, h3, h4]

theorem runScan_noClose (lines : List String) (i m : String) (es : List String) (ms : GoMap)
    (h : ∀ l ∈ lines, noCloseLine l = true) :
    ∃ i2 m2 tail, runScan lines ⟨.inBlock i m, es, ms⟩ = ⟨.inBlock i2 m2, es ++ tail, ms⟩ := by
  induction lines generalizing i m es with
  | nil => exact ⟨i, m, [], by simp [runScan]⟩
  | cons l rest ih =>
    rw [runScan_cons]
    obtain ⟨i2, m2, tail, hstep⟩ := vStep_noClose l i m es ms (h l (List.mem_cons_self l rest))
    rw [hstep]
    obtain ⟨i3, m3, tail2, hrest⟩ := ih i2 m2 (es ++ tail)
      (fun x hx => h x (List.mem_cons_of_mem _ hx))
    exact ⟨i3, m3, tail ++ tail2, by rw [hrest, List.append_assoc]⟩

/-- C6 counterexample: this file contains the marker, then a line id:
"invalid_input", then a line message: "must not be empty", all before the
block-closing line — yet because another id: line intervenes, the message is
recorded for zz and no default message is associated with invalid_input. -/
theorem claim_C6_counterexample :
    (markerLine "(buf.validate.field).cel" = true ∧
      goHasPre (goTrim "id: \"invalid_input\"") "id:" = true ∧
      extractQuoted (goTrim "id: \"invalid_input\"") = some "invalid_input" ∧
      goHasPre (goTrim "message: \"must not be empty\"") "message:" = true ∧
      extractQuoted (goTrim "message: \"must not be empty\"") = some "must not be empty" ∧
      goHasPre (goTrim "\x7d];") "\x7d];" = true) ∧
    validationScan ["(buf.validate.field).cel", "id: \"invalid_input\"", "id: \"zz\"",
      "message: \"must not be empty\"", "\x7d];"] =
      (["invalid_input", "zz"], [("zz", "must not be empty")]) ∧
    goFind (validationScan ["(buf.validate.field).cel", "id: \"invalid_input\"",
      "id: \"zz\"", "message: \"must not be empty\"", "\x7d];"]).2 "invalid_input" = none := by
  refine ⟨⟨?_, ?_, ?_, ?_, ?_, ?_⟩, ?_, ?_⟩ <;> decide

/-- C6 (amended): a validation block consisting of the marker, a line id:
"invalid_input", a line message: "must not be empty" and the closing line —
with any other in-block lines inert (no further id, message, or closing
tokens) and the marker reached outside a block — yields the key
invalid_input with default message must not be empty. The counterexample
shows the extra in-block condition is necessary: an intervening id: line
steals the message. -/
theorem claim_C6_amended (pre mid1 mid2 mid3 post : List String)
    (mline idL msgL cl : String)
    (hpre : ∀ l ∈ pre, markerLine l = false)
    (hm : markerLine mline = true)
    (hmid1 : ∀ l ∈ mid1, neutralLine l = true)
    (hid : goHasPre (goTrim idL) "id:" = true)
    (hidv : extractQuoted (goTrim idL) = some "invalid_input")
    (hmid2 : ∀ l ∈ mid2, neutralLine l = true)
    (hmsg : goHasPre (goTrim msgL) "message:" = true)
    (hmsgv : extractQuoted (goTrim msgL) = some "must not be empty")
    (hmid3 : ∀ l ∈ mid3, neutralLine l = true)
    (hcl : (goHasPre (goTrim cl) "\x7d];" || goHasPre (goTrim cl) "\x7d,") = true)
    (hpost : ∀ l ∈ post, markerLine l = false) :
    "invalid_input" ∈ (validationScan
      (pre ++ (mline :: mid1) ++ (idL :: mid2) ++ (msgL :: mid3) ++ (cl :: post))).1 ∧
    goFind (validationScan
      (pre ++ (mline :: mid1) ++ (idL :: mid2) ++ (msgL :: mid3) ++ (cl :: post))).2
      "invalid_input" = some "must not be empty" := by
  have s0 : runScan pre ⟨.seeking, [], []⟩ = ⟨.seeking, [], []⟩ :=
    runScan_seeking pre [] [] hpre
  have s1 : runScan (mline :: mid1) (⟨.seeking, [], []⟩ : VState) =
      ⟨.inBlock "" "", [], []⟩ := by
    rw [runScan_cons, vStep_marker mline [] [] hm]
    exact runScan_neutral mid1 "" "" [] [] hmid1
  have s2 : runScan (idL :: mid2) (⟨.inBlock "" "", [], []⟩ : VState) =
      ⟨.inBlock "invalid_input" "", ["invalid_input"], []⟩ := by
    rw [runScan_cons, vStep_id idL "" "" "invalid_input" [] [] hid hidv]
    exact runScan_neutral mid2 "invalid_input" "" ["invalid_input"] [] hmid2
  have s3 : runScan (msgL :: mid3)
      (⟨.inBlock "invalid_input" "", ["invalid_input"], []⟩ : VState) =
      ⟨.inBlock "invalid_input" "must not be empty", ["invalid_input"], []⟩ := by
    rw [runScan_cons, vStep_message msgL "invalid_input" "" "must not be empty"
      ["invalid_input"] [] hmsg hmsgv]
    exact runScan_neutral mid3 "invalid_input" "must not be empty" ["invalid_input"] [] hmid3
  have s4 : runScan (cl :: post)
      (⟨.inBlock "invalid_input" "must not be empty", ["invalid_input"], []⟩ : VState) =
      ⟨.seeking, ["invalid_input"], [("invalid_input", "must not be empty")]⟩ := by
    rw [runScan_cons, vStep_close cl "invalid_input" "must not be empty"
      ["invalid_input"] [] hcl]
    have hins : (if ("invalid_input" : String) ≠ "" then
        goInsert [] "invalid_input" "must not be empty" else []) =
        [("invalid_input", "must not be empty")] := by decide
    rw [hins]
    exact runScan_seeking post ["invalid_input"] [("invalid_input", "must not be empty")] hpost
  have hv : validationScan
      (pre ++ (mline :: mid1) ++ (idL :: mid2) ++ (msgL :: mid3) ++ (cl :: post)) =
      (["invalid_input"], [("invalid_input", "must not be empty")]) := by
    unfold validationScan
    rw [runScan_append, runScan_append, runScan_append, runScan_append,
      s0, s1, s2, s3, s4]
  rw [hv]
  exact ⟨by decide, by decide⟩

/-- Witness for the amended C6 at a concrete four-line block. -/
theorem claim_C6_witness :
    "invalid_input" ∈ (validationScan (([] : List String) ++
      ("x (buf.validate.field).cel" :: []) ++ ("id: \"invalid_input\"" :: []) ++
      ("message: \"must not be empty\"" :: []) ++ ("\x7d];" :: []))).1 ∧
    goFind (validationScan (([] : List String) ++
      ("x (buf.validate.field).cel" :: []) ++ ("id: \"invalid_input\"" :: []) ++
      ("message: \"must not be empty\"" :: []) ++ ("\x7d];" :: []))).2
      "invalid_input" = some "must not be empty" :=
  claim_C6_amended [] [] [] [] [] "x (buf.validate.field).cel" "id: \"invalid_input\""
    "message: \"must not be empty\"" "\x7d];"
    (by decide) (by decide) (by decide) (by decide) (by decide) (by decide)
    (by decide) (by decide) (by decide) (by decide) (by decide)

/-- C10: when a validation block contains a valid id: line but the file ends
before any block-closing line, the extracted id is still appended to the key
list, yet no default message is recorded for it — not even when a message:
line is present in the truncated block (non-closing lines may follow the id
line freely). -/
theorem claim_C10_eof_block (pre mid1 mid2 : List String) (mline idL : String) (k : String)
    (hpre : ∀ l ∈ pre, markerLine l = false)
    (hm : markerLine mline = true)
    (hmid1 : ∀ l ∈ mid1, noCloseLine l = true)
    (hid : goHasPre (goTrim idL) "id:" = true)
    (hidv : extractQuoted (goTrim idL) = some k)
    (hmid2 : ∀ l ∈ mid2, noCloseLine l = true) :
    k ∈ (validationScan (pre ++ (mline :: mid1) ++ (idL :: mid2))).1 ∧
    (validationScan (pre ++ (mline :: mid1) ++ (idL :: mid2))).2 = [] ∧
    goFind (validationScan (pre ++ (mline :: mid1) ++ (idL :: mid2))).2 k = none := by
  obtain ⟨i1, m1, t1, h1⟩ := runScan_noClose mid1 "" "" [] [] hmid1
  obtain ⟨i2, m2, t2, h2⟩ := runScan_noClose mid2 k m1 (([] ++ t1) ++ [k]) [] hmid2
  have s1 : runScan (mline :: mid1) (⟨.seeking, [], []⟩ : VState) =
      ⟨.inBlock i1 m1, [] ++ t1, []⟩ := by
    rw [runScan_cons, vStep_marker mline [] [] hm]
    exact h1
  have s2 : runScan (idL :: mid2) (⟨.inBlock i1 m1, [] ++ t1, []⟩ : VState) =
      ⟨.inBlock i2 m2, (([] ++ t1) ++ [k]) ++ t2, []⟩ := by
    rw [runScan_cons, vStep_id idL i1 m1 k ([] ++ t1) [] hid hidv]
    exact h2
  have hrun : runScan (pre ++ (mline :: mid1) ++ (idL :: mid2)) ⟨.seeking, [], []⟩ =
      ⟨.inBlock i2 m2, (([] ++ t1) ++ [k]) ++ t2, []⟩ := by
    rw [runScan_append, runScan_append, runScan_seeking pre [] [] hpre, s1, s2]
  have hv : validationScan (pre ++ (mline :: mid1) ++ (idL :: mid2)) =
      ((([] ++ t1) ++ [k]) ++ t2, []) := by
    unfold validationScan
    rw [hrun]
  rw [hv]
  exact ⟨List.mem_append_left _ (List.mem_append_right _ (List.mem_singleton.mpr rfl)),
    rfl, rfl⟩

/-- Witness for C10 at a concrete truncated block containing a message line. -/
theorem claim_C10_witness :
    "k1" ∈ (validationScan (([] : List String) ++
      ("x (buf.validate.field).cel" :: []) ++
      ("id: \"k1\"" :: ["message: \"mm\""]))).1 ∧
    (validationScan (([] : List String) ++ ("x (buf.validate.field).cel" :: []) ++
      ("id: \"k1\"" :: ["message: \"mm\""]))).2 = [] ∧
    goFind (validationScan (([] : List String) ++ ("x (buf.validate.field).cel" :: []) ++
      ("id: \"k1\"" :: ["message: \"mm\""]))).2 "k1" = none :=
  claim_C10_eof_block [] [] ["message: \"mm\""] "x (buf.validate.field).cel" "id: \"k1\"" "k1"
    (by decide) (by decide) (by decide) (by decide) (by decide) (by decide)
